import Mathlib

set_option linter.unusedVariables false

/-!
Shallow embedding of the request-dispatch core of node-restify:
`lib/chain.js` (middleware chain engine) and `lib/router.js` (router).

The chain engine is modelled as a fuel-indexed interpreter `runNext` that
mirrors the mutually-entangled closures `next` (in `Chain.prototype.handle`)
and `call` of `lib/chain.js`.  Handlers are data: an arity (JS
`handle.length`) together with a description of what the handler body does
with the continuation it receives (call it once, call it twice, or never
call it).  The interpreter records the observable effects: timer hooks,
handler-body invocations and invocations of the terminal callback `done`.
-/

/-- JavaScript values that flow through a chain continuation: `undefined`
(calling `next()` with no argument), `null` (another falsy, non-`false`
value), the literal `false`, and truthy error values (indexed by a `Nat`). -/
inductive JSVal where
  | undefV
  | nullV
  | falseLit
  | errVal (n : Nat)
deriving DecidableEq, Repr

/-- JS truthiness of the values above: only error objects are truthy. -/
def JSVal.truthy : JSVal → Bool
  | .errVal _ => true
  | _ => false

/-- `var hasError = err === false || Boolean(err);` (lib/chain.js, `call`). -/
def hasErrorB (err : JSVal) : Bool :=
  err == .falseLit || err.truthy

/-- What a handler body does with the continuation it receives when its body
actually runs: call it once with a value (`next1 .undefV` is `next()`), call
it twice, or return without ever calling it. -/
inductive HAction where
  | next1 (v : JSVal)
  | next2 (v₁ v₂ : JSVal)
  | stall
deriving DecidableEq, Repr

/-- A handler in a chain's `_stack`: its `_name` (used by the timer hooks),
its arity (JS `handle.length`) and its body's behaviour. -/
structure Handler where
  name : String
  arity : Nat
  action : HAction
deriving DecidableEq, Repr

/-- The slice of the request object that `Chain.prototype.handle` consumes:
the optional `closed()` hook.  `none` models a request object that does not
supply the hook (so that evaluating `req.closed()` is a TypeError); `some b`
models a hook that returns `b`.  The timer hooks `startHandlerTimer` /
`endHandlerTimer` are assumed present (they are recorded as events). -/
structure Req where
  closed : Option Bool
deriving DecidableEq, Repr

/-- Configuration state of a `Chain` instance. -/
structure ChainOpts where
  onceNext : Bool
  strictNext : Bool
deriving DecidableEq, Repr

/-- The `Chain(options)` constructor of lib/chain.js:
`this.onceNext = !!options.onceNext; this.strictNext = !!options.strictNext;`
and `strictNext` enforces `onceNext`. -/
def Chain.new (onceNext strictNext : Bool) : ChainOpts :=
  { onceNext := onceNext || strictNext, strictNext := strictNext }

/-- Observable events of one `Chain.prototype.handle` dispatch:
`req.startHandlerTimer(name)`, `req.endHandlerTimer(name)`, the handler body
at stack position `idx` starting to run (`errArg = some e` when it runs as
error-handling middleware, receiving `e`), and the terminal callback `done`
being scheduled (`setImmediate(done, err, req, res)`) with value `v`. -/
inductive Ev where
  | timerStart (name : String)
  | timerEnd (name : String)
  | invoke (idx : Nat) (errArg : Option JSVal)
  | doneCall (v : JSVal)
deriving DecidableEq, Repr

/-- How a dispatch ends: normally (all synchronous work ran to completion),
with a TypeError (`req.closed` is not a function), with the uncaught error
thrown by the strict once-wrapper, or out of fuel (never happens for the
fuel used by `Chain.handle`). -/
inductive Outcome where
  | normal
  | typeError (msg : String)
  | fatal (msg : String)
  | noFuel
deriving DecidableEq, Repr

/-- Result of (a suffix of) one dispatch: the events it produced in order,
the final value of the shared cursor `index`, and how it ended. -/
structure RunRes where
  events : List Ev
  index : Nat
  outcome : Outcome
deriving DecidableEq, Repr

/-- Prepend events to a run result. -/
def prependEv (tr : List Ev) (r : RunRes) : RunRes :=
  ⟨tr ++ r.events, r.index, r.outcome⟩

/--
The `next(err)` closure of `Chain.prototype.handle` together with the
helper `call` of lib/chain.js, as a fuel-indexed interpreter.

* `var layer = self._stack[index++];` — the cursor is read and incremented
  on every entry.
* `if (!layer || req.closed()) { setImmediate(done, err, req, res); return; }`
  — when the stack is exhausted `req.closed` is not consulted (short
  circuit); otherwise a request without the hook raises a TypeError.
* `call(layer.handle, err, req, res, self.onceNext ? self._once(next) : next)`
  — `call` records `req.startHandlerTimer(handle._name)`, then dispatches on
  `hasError` and the handler arity; the continuation handed to the handler
  body first runs `req.endHandlerTimer(handle._name)` and then the (possibly
  once-wrapped) chain `next`.  The external `once` package wraps `next` so
  that a second call is dropped (`once`) or throws an `Error` whose message
  is built from the wrapped function's name, here `next` (`once.strict`);
  lib/chain.js `call` contains no try/catch, so that throw escapes the whole
  dispatch.  A skipped handler (arity mismatch for the current error state)
  still gets both timer events: the skip path is `next(error, req, res)`,
  which is `call`'s timing wrapper.
-/
def runNext (fuel : Nat) (stack : List Handler) (opts : ChainOpts) (req : Req)
    (i : Nat) (err : JSVal) : RunRes :=
  match fuel with
  | 0 => ⟨[], i, .noFuel⟩
  | fuel + 1 =>
    match stack[i]? with
    | none => ⟨[.doneCall err], i + 1, .normal⟩
    | some h =>
      match req.closed with
      | none => ⟨[], i + 1, .typeError "req.closed is not a function"⟩
      | some true => ⟨[.doneCall err], i + 1, .normal⟩
      | some false =>
        let body : RunRes :=
          match h.action with
          | .stall => ⟨[], i + 1, .normal⟩
          | .next1 v =>
            let r := runNext fuel stack opts req (i + 1) v
            ⟨.timerEnd h.name :: r.events, r.index, r.outcome⟩
          | .next2 v₁ v₂ =>
            let r₁ := runNext fuel stack opts req (i + 1) v₁
            match r₁.outcome with
            | .normal =>
              if opts.onceNext then
                if opts.strictNext then
                  ⟨.timerEnd h.name :: r₁.events ++ [.timerEnd h.name], r₁.index,
                    .fatal "next shouldn't be called more than once"⟩
                else
                  ⟨.timerEnd h.name :: r₁.events ++ [.timerEnd h.name], r₁.index, .normal⟩
              else
                let r₂ := runNext fuel stack opts req r₁.index v₂
                ⟨.timerEnd h.name :: r₁.events ++ [.timerEnd h.name] ++ r₂.events,
                  r₂.index, r₂.outcome⟩
            | _ => ⟨.timerEnd h.name :: r₁.events, r₁.index, r₁.outcome⟩
        if hasErrorB err ∧ h.arity = 4 then
          ⟨.timerStart h.name :: .invoke i (some err) :: body.events, body.index, body.outcome⟩
        else if ¬ hasErrorB err ∧ h.arity < 4 then
          ⟨.timerStart h.name :: .invoke i none :: body.events, body.index, body.outcome⟩
        else
          let r := runNext fuel stack opts req (i + 1) err
          ⟨.timerStart h.name :: .timerEnd h.name :: r.events, r.index, r.outcome⟩

/-- `Chain.prototype.handle(req, res, done)`: start the walk with
`index = 0` and `err = undefined`.  The fuel `2 * stack.length + 2` bounds
the recursion depth, which never exceeds `stack.length + 2` because the
shared cursor grows by one on every entry of `next`. -/
def Chain.handle (stack : List Handler) (opts : ChainOpts) (req : Req) : RunRes :=
  runNext (2 * stack.length + 2) stack opts req 0 .undefV

/-- `Chain.prototype.use(handle)`: push onto `_stack`.  (The `_name`
assignment and sub-chain wrapping of the source act on the function object;
here a `Handler` already carries its display name.) -/
def Chain.use (stack : List Handler) (h : Handler) : List Handler :=
  stack ++ [h]

/-- `Chain.prototype.count()`. -/
def Chain.count (stack : List Handler) : Nat := stack.length

/-- `Chain.prototype.getHandlers()`: the ordered `handle` members of the
stack items — with stack items modelled as the handlers themselves, the
identity. -/
def Chain.getHandlers (stack : List Handler) : List Handler := stack

/-- Values with which `done` was scheduled, in order. -/
def doneVals (evs : List Ev) : List JSVal :=
  evs.filterMap fun e =>
    match e with
    | .doneCall v => some v
    | _ => none

/-- Handler-body invocations `(position, error argument)`, in order. -/
def invokedOf (evs : List Ev) : List (Nat × Option JSVal) :=
  evs.filterMap fun e =>
    match e with
    | .invoke i a => some (i, a)
    | _ => none

/-- Expected event trace of a phase in which every handler is normal
(arity < 4), runs with no error in flight and continues with `next()`:
at cursor `i` the handler produces its timer-start, its body invocation and
the timer-end recorded by the continuation wrapper. -/
def normalTrace : List Handler → Nat → List Ev
  | [], _ => []
  | h :: t, i => .timerStart h.name :: .invoke i none :: .timerEnd h.name :: normalTrace t (i + 1)

/-- Expected event trace of a phase in which every handler is skipped
(arity mismatch for the current error state): only the two timer events. -/
def skipTrace : List Handler → List Ev
  | [] => []
  | h :: t => .timerStart h.name :: .timerEnd h.name :: skipTrace t

/-!
Embedding of `lib/router.js`.

Handler functions are heap objects here, because `Router.prototype.mount`
mutates them: a function is a `Nat` identifier, and a `Store` maps each
identifier to the function's immutable `name` property together with its
mutable `_name` property (`uName`, `none` while unset).

The router's path matcher is the external `find-my-way` package (a
dependency, not part of this repository).  It is modelled for static paths
only — exactly the shape the routing claims use — as a list of
`(method, path, route)` registrations searched by equality.
-/

/-- A handler function object: its immutable `name` property and its mutable
`_name` property (`none` = not set; `some ""` = set to the empty string). -/
structure Fn where
  name : String
  uName : Option String
deriving DecidableEq, Repr

/-- The heap of function objects. -/
def Store := Nat → Fn

/-- Mutate one function object in the heap. -/
def updateStore (σ : Store) (id : Nat) (f : Fn) : Store :=
  fun x => if x = id then f else σ x

/-- Chain.prototype.use's `handle._name = handle._name || handle.name;`
(re-assigns only when `_name` is still falsy). -/
def chainUseName (f : Fn) : Fn :=
  match f.uName with
  | none => { f with uName := some f.name }
  | some s => if s = "" then { f with uName := some f.name } else f

/-- The `handlers.forEach` body of `Router.prototype.mount`:
`handler._name = handler.name || 'handler-' + self._anonymusHandlerCounter++;`
followed by `chain.use(handler)`.  The counter is bumped only when the
right-hand side of `||` is evaluated, i.e. only for anonymous handlers. -/
def mountNames (σ : Store) (c : Nat) : List Nat → Store × Nat
  | [] => (σ, c)
  | id :: rest =>
    let f := σ id
    if f.name = "" then
      let σ₁ := updateStore σ id { f with uName := some ("handler-" ++ toString c) }
      let σ₂ := updateStore σ₁ id (chainUseName (σ₁ id))
      mountNames σ₂ (c + 1) rest
    else
      let σ₁ := updateStore σ id { f with uName := some f.name }
      let σ₂ := updateStore σ₁ id (chainUseName (σ₁ id))
      mountNames σ₂ c rest

/-- Number of anonymous handlers (empty `name` property) in a list, under a
given heap — the amount by which one mount advances the counter. -/
def anonCount (σ : Store) (l : List Nat) : Nat :=
  (l.filter fun id => (σ id).name = "").length

/-- The `_name` value `mount` assigns to a handler whose `name` property is
`n` when the counter stands at `c`. -/
def expectedName (n : String) (c : Nat) : String :=
  if n = "" then "handler-" ++ toString c else n

/-- A path argument to `mount`: a string or a regular expression (kept as
its `source` string). -/
inductive PathSpec where
  | str (s : String)
  | regex (source : String)
deriving DecidableEq, Repr

/-- The path stored by `Router.prototype.mount`:
`if (_.isRegExp(path)) { path = path.source.replace(/\\/g, '');
if (path[0] === '^') { path = path.substring(1); } }` —
`replace(/\\/g, '')` deletes every backslash character, and `substring(1)`
drops the first character when it is `^` (character-level model of the two
string operations). -/
def mountPath : PathSpec → String
  | .str s => s
  | .regex src =>
    let l := src.data.filter fun c => c ≠ '\\'
    if l.take 1 = ['^'] then String.mk l.tail else String.mk l

/-- A mounted route: `{name, method, path, chain}` (the `spec` member is the
mount options and is omitted; the chain is its list of handler ids in `use`
order). -/
structure Route where
  name : String
  method : String
  path : String
  chain : List Nat
deriving DecidableEq, Repr

/-- One `findMyWay.on(method, path, onRoute, {route})` registration. -/
structure FmwEntry where
  method : String
  path : String
  route : Route
deriving DecidableEq, Repr

/-- Router state: the name → route map `mounts` (insertion list, names
unique by update-or-append), the matcher registrations, and
`_anonymusHandlerCounter`. -/
structure RouterSt where
  mounts : List (String × Route)
  fmw : List FmwEntry
  anonymusHandlerCounter : Nat
deriving DecidableEq, Repr

/-- A fresh router (`new Router(...)`). -/
def Router.new : RouterSt :=
  ⟨[], [], 0⟩

/-- `self.mounts[route.name] = route`. -/
def assocUpdate (l : List (String × Route)) (k : String) (v : Route) :
    List (String × Route) :=
  if l.any fun p => p.1 = k then
    l.map fun p => if p.1 = k then (k, v) else p
  else l ++ [(k, v)]

/-- `findMyWay.find(method, path)` for static routes: first registration
whose method and path equal the request's. -/
def fmwFind (entries : List FmwEntry) (method pathname : String) : Option FmwEntry :=
  entries.find? fun e => e.method == method && e.path == pathname

/-- Mount options `{name, method, path}`. -/
structure MountOpts where
  name : String
  method : String
  path : PathSpec
deriving DecidableEq, Repr

/-- `Router.prototype.mount(opts, handlers)`: convert the path, assign
`_name`s (mutating the heap) while filling the chain, register with the
matcher, store the route by name, and return the route. -/
def Router.mount (r : RouterSt) (σ : Store) (opts : MountOpts) (handlers : List Nat) :
    RouterSt × Store × Route :=
  let path := mountPath opts.path
  let named := mountNames σ r.anonymusHandlerCounter handlers
  let route : Route := ⟨opts.name, opts.method, path, handlers⟩
  (⟨assocUpdate r.mounts opts.name route,
    r.fmw ++ [⟨opts.method, path, route⟩],
    named.2⟩,
   named.1, route)

/-- The request slice `Router.prototype.lookup` and `defaultRoute` consume:
`req.method` and `req.getUrl().pathname`. -/
structure RouterReq where
  method : String
  pathname : String
deriving DecidableEq, Repr

/-- Errors from the external `restify-errors` package, reduced to the status
code and message the router constructs. -/
structure RestErr where
  statusCode : Nat
  message : String
deriving DecidableEq, Repr

/-- Outcome of `Router.prototype.lookup`: dispatch of a matched route's
chain (`fmwRoute.handler` → `chain.handle`), propagation of an error to
`next` — carrying the `Allow` header value set on the response in the 405
branch — or the unconditional CORS answer (`res.send(200); next(null)`). -/
inductive LookupRes where
  | dispatched (route : Route)
  | nextErr (e : RestErr) (allow : Option String)
  | corsOk
deriving DecidableEq, Repr

/-- `http.METHODS` of the Node.js runtime (external collaborator). -/
def httpMethods : List String :=
  ["ACL", "BIND", "CHECKOUT", "CONNECT", "COPY", "DELETE", "GET", "HEAD",
   "LINK", "LOCK", "M-SEARCH", "MERGE", "MKACTIVITY", "MKCALENDAR", "MKCOL",
   "MOVE", "NOTIFY", "OPTIONS", "PATCH", "POST", "PROPFIND", "PROPPATCH",
   "PURGE", "PUT", "REBIND", "REPORT", "SEARCH", "SOURCE", "SUBSCRIBE",
   "TRACE", "UNBIND", "UNLINK", "UNLOCK", "UNSUBSCRIBE"]

/-- `Router.prototype.defaultRoute`: CORS preflight for `OPTIONS *`;
otherwise probe every HTTP method against the path — if any method matches,
set the `Allow` header and propagate a 405 `MethodNotAllowedError`
(`'%s is not allowed'` of the method); otherwise propagate a 404
`ResourceNotFoundError` (`'%s does not exist'` of the pathname). -/
def Router.defaultRoute (r : RouterSt) (req : RouterReq) : LookupRes :=
  if req.method = "OPTIONS" ∧ req.pathname = "*" then
    .corsOk
  else
    let allowedMethods := httpMethods.filter fun m => (fmwFind r.fmw m req.pathname).isSome
    if allowedMethods ≠ [] then
      .nextErr ⟨405, req.method ++ " is not allowed"⟩
        (some (String.intercalate ", " allowedMethods))
    else
      .nextErr ⟨404, req.pathname ++ " does not exist"⟩ none

/-- `Router.prototype.lookup`: find a matcher entry for method + pathname;
dispatch its route's chain on a hit, run `defaultRoute` otherwise. -/
def Router.lookup (r : RouterSt) (req : RouterReq) : LookupRes :=
  match fmwFind r.fmw req.method req.pathname with
  | none => Router.defaultRoute r req
  | some e => .dispatched e.route

/-- The methods `lib/chain.js` installs on `Chain.prototype`. -/
def chainPrototypeMethods : List String :=
  ["getHandlers", "use", "count", "handle"]

/-- One value of the map `Router.prototype.getDebugInfo` intends to build. -/
structure DebugEntry where
  name : String
  method : String
  path : String
  handlers : List Nat
deriving DecidableEq, Repr

/-- `Router.prototype.getDebugInfo`: `_.mapValues(this.mounts, ...)` runs
the mapper once per mounted route; each run evaluates
`route.chain.extractHandlers()` — a dynamic method access on the Chain
instance.  `lib/chain.js` defines no `extractHandlers`
(`chainPrototypeMethods`), so with at least one route mounted the access is
a TypeError; with no routes the mapper never runs and the empty map is
returned. -/
def Router.getDebugInfo (r : RouterSt) : Except String (List (String × DebugEntry)) :=
  if r.mounts.isEmpty then
    .ok []
  else if chainPrototypeMethods.contains "extractHandlers" then
    .ok (r.mounts.map fun p =>
      (p.1, ⟨p.2.name, p.2.method.toLower, p.2.path, p.2.chain⟩))
  else
    .error "TypeError: route.chain.extractHandlers is not a function"

/-!  Step lemmas: one unfolding of `runNext` per situation.  -/

theorem step_done (f i : Nat) (stack : List Handler) (opts : ChainOpts) (req : Req)
    (e : JSVal) (hg : stack[i]? = none) :
    runNext (f + 1) stack opts req i e = ⟨[.doneCall e], i + 1, .normal⟩ := by
  simp only [runNext, hg]

theorem step_normal (f i : Nat) (stack : List Handler) (opts : ChainOpts) (req : Req)
    (e v : JSVal) (h : Handler) (hg : stack[i]? = some h) (hc : req.closed = some false)
    (he : hasErrorB e = false) (ha : h.arity < 4) (hact : h.action = .next1 v) :
    runNext (f + 1) stack opts req i e =
      prependEv [.timerStart h.name, .invoke i none, .timerEnd h.name]
        (runNext f stack opts req (i + 1) v) := by
  have hne : ¬(hasErrorB e = true ∧ h.arity = 4) := by simp [he]
  have hpos : ¬(hasErrorB e = true) ∧ h.arity < 4 := ⟨by simp [he], ha⟩
  simp only [runNext, hg, hc, hact, prependEv]
  rw [if_neg hne, if_pos hpos]
  simp

theorem step_skip (f i : Nat) (stack : List Handler) (opts : ChainOpts) (req : Req)
    (e : JSVal) (h : Handler) (hg : stack[i]? = some h) (hc : req.closed = some false)
    (he : hasErrorB e = true) (ha : h.arity ≠ 4) :
    runNext (f + 1) stack opts req i e =
      prependEv [.timerStart h.name, .timerEnd h.name]
        (runNext f stack opts req (i + 1) e) := by
  have hne1 : ¬(hasErrorB e = true ∧ h.arity = 4) := by simp [ha]
  have hne2 : ¬(¬(hasErrorB e = true) ∧ h.arity < 4) := by simp [he]
  simp only [runNext, hg, hc, prependEv]
  rw [if_neg hne1, if_neg hne2]
  simp

theorem step_errinvoke (f i : Nat) (stack : List Handler) (opts : ChainOpts) (req : Req)
    (e : JSVal) (h : Handler) (hg : stack[i]? = some h) (hc : req.closed = some false)
    (he : hasErrorB e = true) (ha : h.arity = 4) :
    ∃ evs idx out,
      runNext (f + 1) stack opts req i e =
        ⟨.timerStart h.name :: .invoke i (some e) :: evs, idx, out⟩ := by
  have hpos : hasErrorB e = true ∧ h.arity = 4 := ⟨he, ha⟩
  simp only [runNext, hg, hc]
  rw [if_pos hpos]
  exact ⟨_, _, _, rfl⟩

theorem step_next2_strict (f i : Nat) (stack : List Handler) (opts : ChainOpts)
    (req : Req) (h : Handler) (hg : stack[i]? = some h) (hc : req.closed = some false)
    (ha : h.arity < 4) (hact : h.action = .next2 .undefV .undefV)
    (honce : opts.onceNext = true) (hstrict : opts.strictNext = true)
    (hout : (runNext f stack opts req (i + 1) .undefV).outcome = .normal) :
    runNext (f + 1) stack opts req i .undefV =
      ⟨.timerStart h.name :: .invoke i none :: .timerEnd h.name ::
        (runNext f stack opts req (i + 1) .undefV).events ++ [.timerEnd h.name],
        (runNext f stack opts req (i + 1) .undefV).index,
        .fatal "next shouldn't be called more than once"⟩ := by
  have hne : ¬(hasErrorB .undefV = true ∧ h.arity = 4) := by simp [hasErrorB, JSVal.truthy]
  have hpos : ¬(hasErrorB .undefV = true) ∧ h.arity < 4 := ⟨by decide, ha⟩
  simp only [runNext, hg, hc, hact]
  rw [if_neg hne, if_pos hpos]
  rw [hout, honce, hstrict]
  simp

theorem step_next2_silent (f i : Nat) (stack : List Handler) (opts : ChainOpts)
    (req : Req) (h : Handler) (hg : stack[i]? = some h) (hc : req.closed = some false)
    (ha : h.arity < 4) (hact : h.action = .next2 .undefV .undefV)
    (honce : opts.onceNext = true) (hstrict : opts.strictNext = false)
    (hout : (runNext f stack opts req (i + 1) .undefV).outcome = .normal) :
    runNext (f + 1) stack opts req i .undefV =
      ⟨.timerStart h.name :: .invoke i none :: .timerEnd h.name ::
        (runNext f stack opts req (i + 1) .undefV).events ++ [.timerEnd h.name],
        (runNext f stack opts req (i + 1) .undefV).index, .normal⟩ := by
  have hne : ¬(hasErrorB .undefV = true ∧ h.arity = 4) := by simp [hasErrorB, JSVal.truthy]
  have hpos : ¬(hasErrorB .undefV = true) ∧ h.arity < 4 := ⟨by decide, ha⟩
  simp only [runNext, hg, hc, hact]
  rw [if_neg hne, if_pos hpos]
  rw [hout, honce, hstrict]
  simp

/-!  Segment lemmas: running `runNext` across a block of handlers.  -/

theorem run_seg_normal (seg : List Handler) :
    ∀ (front rest : List Handler) (fuel : Nat) (opts : ChainOpts) (req : Req),
    req.closed = some false →
    (∀ h ∈ seg, h.arity < 4 ∧ h.action = .next1 .undefV) →
    seg.length ≤ fuel →
    runNext fuel (front ++ (seg ++ rest)) opts req front.length .undefV =
      prependEv (normalTrace seg front.length)
        (runNext (fuel - seg.length) (front ++ (seg ++ rest)) opts req
          (front.length + seg.length) .undefV) := by
  induction seg with
  | nil =>
    intro front rest fuel opts req hc hall hf
    simp [normalTrace, prependEv]
  | cons h t ih =>
    intro front rest fuel opts req hc hall hf
    simp only [List.length_cons] at hf
    obtain ⟨f, rfl⟩ : ∃ f, fuel = f + 1 := ⟨fuel - 1, by omega⟩
    have hg : (front ++ ((h :: t) ++ rest))[front.length]? = some h := by
      rw [List.getElem?_append_right (Nat.le_refl _)]
      simp
    rw [step_normal f front.length (front ++ ((h :: t) ++ rest)) opts req .undefV .undefV h hg
      hc rfl (hall h (by simp)).1 (hall h (by simp)).2]
    have ih' := ih (front ++ [h]) rest f opts req hc
      (fun x hx => hall x (List.mem_cons_of_mem h hx)) (by omega)
    have hstack : (front ++ [h]) ++ (t ++ rest) = front ++ ((h :: t) ++ rest) := by simp
    have hlen : (front ++ [h]).length = front.length + 1 := by simp
    rw [hstack, hlen] at ih'
    rw [ih']
    have e1 : f + 1 - (h :: t).length = f - t.length := by
      simp only [List.length_cons]; omega
    have e2 : front.length + (h :: t).length = front.length + 1 + t.length := by
      simp only [List.length_cons]; omega
    rw [e1, e2]
    simp [prependEv, normalTrace]

theorem run_seg_skip (seg : List Handler) :
    ∀ (front rest : List Handler) (fuel : Nat) (opts : ChainOpts) (req : Req) (e : JSVal),
    req.closed = some false →
    hasErrorB e = true →
    (∀ h ∈ seg, h.arity ≠ 4) →
    seg.length ≤ fuel →
    runNext fuel (front ++ (seg ++ rest)) opts req front.length e =
      prependEv (skipTrace seg)
        (runNext (fuel - seg.length) (front ++ (seg ++ rest)) opts req
          (front.length + seg.length) e) := by
  induction seg with
  | nil =>
    intro front rest fuel opts req e hc he hall hf
    simp [skipTrace, prependEv]
  | cons h t ih =>
    intro front rest fuel opts req e hc he hall hf
    simp only [List.length_cons] at hf
    obtain ⟨f, rfl⟩ : ∃ f, fuel = f + 1 := ⟨fuel - 1, by omega⟩
    have hg : (front ++ ((h :: t) ++ rest))[front.length]? = some h := by
      rw [List.getElem?_append_right (Nat.le_refl _)]
      simp
    rw [step_skip f front.length (front ++ ((h :: t) ++ rest)) opts req e h hg
      hc he (hall h (by simp))]
    have ih' := ih (front ++ [h]) rest f opts req e hc he
      (fun x hx => hall x (List.mem_cons_of_mem h hx)) (by omega)
    have hstack : (front ++ [h]) ++ (t ++ rest) = front ++ ((h :: t) ++ rest) := by simp
    have hlen : (front ++ [h]).length = front.length + 1 := by simp
    rw [hstack, hlen] at ih'
    rw [ih']
    have e1 : f + 1 - (h :: t).length = f - t.length := by
      simp only [List.length_cons]; omega
    have e2 : front.length + (h :: t).length = front.length + 1 + t.length := by
      simp only [List.length_cons]; omega
    rw [e1, e2]
    simp [prependEv, skipTrace]

/-!  Trace bookkeeping lemmas.  -/

theorem doneVals_append (a b : List Ev) : doneVals (a ++ b) = doneVals a ++ doneVals b := by
  simp [doneVals, List.filterMap_append]

theorem invokedOf_append (a b : List Ev) :
    invokedOf (a ++ b) = invokedOf a ++ invokedOf b := by
  simp [invokedOf, List.filterMap_append]

theorem doneVals_normalTrace (l : List Handler) (i : Nat) :
    doneVals (normalTrace l i) = [] := by
  induction l generalizing i with
  | nil => simp [normalTrace, doneVals]
  | cons h t ih => simp [normalTrace, doneVals] at ih ⊢; exact ih _

theorem doneVals_skipTrace (l : List Handler) : doneVals (skipTrace l) = [] := by
  induction l with
  | nil => simp [skipTrace, doneVals]
  | cons h t ih => simp [skipTrace, doneVals] at ih ⊢; exact ih

theorem invokedOf_normalTrace (l : List Handler) (i : Nat) :
    invokedOf (normalTrace l i) = (List.range' i l.length).map fun j => (j, none) := by
  induction l generalizing i with
  | nil => simp [normalTrace, invokedOf]
  | cons h t ih =>
    simp only [normalTrace, invokedOf, List.filterMap_cons, List.length_cons, List.range'_succ]
    simp only [invokedOf] at ih
    simp [ih]

theorem invokedOf_skipTrace (l : List Handler) : invokedOf (skipTrace l) = [] := by
  induction l with
  | nil => simp [skipTrace, invokedOf]
  | cons h t ih => simp [skipTrace, invokedOf] at ih ⊢; exact ih

theorem invokedOf_doneSingleton (v : JSVal) : invokedOf [.doneCall v] = [] := by
  simp [invokedOf]

theorem doneVals_doneSingleton (v : JSVal) : doneVals [.doneCall v] = [v] := by
  simp [doneVals]

theorem doneVals_cons_timerStart (n : String) (l : List Ev) :
    doneVals (.timerStart n :: l) = doneVals l := by simp [doneVals]

theorem doneVals_cons_timerEnd (n : String) (l : List Ev) :
    doneVals (.timerEnd n :: l) = doneVals l := by simp [doneVals]

theorem doneVals_cons_invoke (i : Nat) (a : Option JSVal) (l : List Ev) :
    doneVals (.invoke i a :: l) = doneVals l := by simp [doneVals]

theorem doneVals_cons_done (v : JSVal) (l : List Ev) :
    doneVals (.doneCall v :: l) = v :: doneVals l := by simp [doneVals]

theorem doneVals_nil : doneVals [] = [] := by simp [doneVals]

theorem normalTrace_append (a b : List Handler) (i : Nat) :
    normalTrace (a ++ b) i = normalTrace a i ++ normalTrace b (i + a.length) := by
  induction a generalizing i with
  | nil => simp [normalTrace]
  | cons h t ih =>
    simp only [List.cons_append, normalTrace, List.length_cons, List.append_eq]
    rw [ih (i + 1)]
    have e1 : i + (t.length + 1) = i + 1 + t.length := by omega
    rw [e1]

/-!  Whole-tail lemmas: running from the cursor to the terminal callback.  -/

/-- From cursor `front.length`, a tail of normal `next()` handlers runs each
of them once, in order, and then schedules `done` with no error. -/
theorem run_tail_normal (front post : List Handler) (fuel : Nat) (opts : ChainOpts)
    (req : Req) (hc : req.closed = some false)
    (hall : ∀ h ∈ post, h.arity < 4 ∧ h.action = .next1 .undefV)
    (hf : post.length + 1 ≤ fuel) :
    runNext fuel (front ++ post) opts req front.length .undefV =
      ⟨normalTrace post front.length ++ [.doneCall .undefV],
        front.length + post.length + 1, .normal⟩ := by
  have h0 := run_seg_normal post front [] fuel opts req hc hall (by omega)
  rw [List.append_nil] at h0
  rw [h0]
  obtain ⟨f, hfe⟩ : ∃ f, fuel - post.length = f + 1 := ⟨fuel - post.length - 1, by omega⟩
  rw [hfe]
  rw [step_done f (front.length + post.length) (front ++ post) opts req .undefV
    (List.getElem?_eq_none (by simp))]
  simp [prependEv]

/-- From cursor `front.length` with an error (or `false`) in flight, a tail
without error-handling middleware only records timer pairs and schedules
`done` with that exact value. -/
theorem run_tail_skip_done (front post : List Handler) (fuel : Nat) (opts : ChainOpts)
    (req : Req) (e : JSVal) (hc : req.closed = some false) (he : hasErrorB e = true)
    (hall : ∀ h ∈ post, h.arity ≠ 4)
    (hf : post.length + 1 ≤ fuel) :
    runNext fuel (front ++ post) opts req front.length e =
      ⟨skipTrace post ++ [.doneCall e], front.length + post.length + 1, .normal⟩ := by
  have h0 := run_seg_skip post front [] fuel opts req e hc he hall (by omega)
  rw [List.append_nil] at h0
  rw [h0]
  obtain ⟨f, hfe⟩ : ∃ f, fuel - post.length = f + 1 := ⟨fuel - post.length - 1, by omega⟩
  rw [hfe]
  rw [step_done f (front.length + post.length) (front ++ post) opts req e
    (List.getElem?_eq_none (by simp))]
  simp [prependEv]

/-- From cursor `front.length` with an error (or `false`) in flight, the
handlers before the first error-handling middleware are skipped and that
middleware's body is then invoked with the in-flight value. -/
theorem run_tail_skip_errinvoke (front postA : List Handler) (eh : Handler)
    (postB : List Handler) (fuel : Nat) (opts : ChainOpts) (req : Req) (e : JSVal)
    (hc : req.closed = some false) (he : hasErrorB e = true)
    (hskips : ∀ h ∈ postA, h.arity ≠ 4) (harity : eh.arity = 4)
    (hf : postA.length + 1 ≤ fuel) :
    ∃ evs idx out,
      runNext fuel (front ++ (postA ++ eh :: postB)) opts req front.length e =
        ⟨skipTrace postA ++ .timerStart eh.name ::
          .invoke (front.length + postA.length) (some e) :: evs, idx, out⟩ := by
  have h0 := run_seg_skip postA front (eh :: postB) fuel opts req e hc he hskips (by omega)
  rw [h0]
  obtain ⟨f, hfe⟩ : ∃ f, fuel - postA.length = f + 1 := ⟨fuel - postA.length - 1, by omega⟩
  rw [hfe]
  have hg : (front ++ (postA ++ eh :: postB))[front.length + postA.length]? = some eh := by
    rw [← List.append_assoc]
    rw [List.getElem?_append_right (by simp)]
    simp
  obtain ⟨evs, idx, out, hrun⟩ := step_errinvoke f (front.length + postA.length)
    (front ++ (postA ++ eh :: postB)) opts req e eh hg hc he harity
  rw [hrun]
  exact ⟨evs, idx, out, by simp [prependEv]⟩

/-- Shared scenario lemma for the abort claims: a block of normal `next()`
handlers, then a normal handler whose continuation call carries `e` with
`hasErrorB e` (a truthy error or the literal `false`).  Conjunct (i): when
no error-handling middleware follows, every later handler is skipped and
`done` is scheduled with exactly `e`.  Conjunct (ii): the first
error-handling middleware after the trigger, when one exists, has its body
invoked with `e`. -/
theorem run_error_trigger (pre post : List Handler) (trig : Handler) (e : JSVal)
    (opts : ChainOpts) (req : Req)
    (hc : req.closed = some false) (he : hasErrorB e = true)
    (hpre : ∀ h ∈ pre, h.arity < 4 ∧ h.action = .next1 .undefV)
    (ht : trig.arity < 4) (hact : trig.action = .next1 e) :
    ((∀ h ∈ post, h.arity ≠ 4) →
      Chain.handle (pre ++ trig :: post) opts req =
        ⟨normalTrace pre 0 ++
          .timerStart trig.name :: .invoke pre.length none :: .timerEnd trig.name ::
          (skipTrace post ++ [.doneCall e]),
          (pre ++ trig :: post).length + 1, .normal⟩) ∧
    (∀ (postA : List Handler) (eh : Handler) (postB : List Handler),
      post = postA ++ eh :: postB → (∀ h ∈ postA, h.arity ≠ 4) → eh.arity = 4 →
      ∃ evs idx out,
        Chain.handle (pre ++ trig :: post) opts req =
          ⟨normalTrace pre 0 ++
            .timerStart trig.name :: .invoke pre.length none :: .timerEnd trig.name ::
            (skipTrace postA ++ .timerStart eh.name ::
              .invoke (pre.length + 1 + postA.length) (some e) :: evs), idx, out⟩) := by
  have hlen : (pre ++ trig :: post).length = pre.length + post.length + 1 := by
    simp
    omega
  have hA := run_seg_normal pre [] (trig :: post) (2 * (pre ++ trig :: post).length + 2)
    opts req hc hpre (by omega)
  simp only [List.nil_append, List.length_nil, Nat.zero_add] at hA
  obtain ⟨f, hfe⟩ : ∃ f, 2 * (pre ++ trig :: post).length + 2 - pre.length = f + 1 :=
    ⟨2 * (pre ++ trig :: post).length + 2 - pre.length - 1, by rw [hlen]; omega⟩
  have hfbig : post.length + 1 ≤ f := by rw [hlen] at hfe; omega
  have hg : (pre ++ trig :: post)[pre.length]? = some trig := by
    rw [List.getElem?_append_right (Nat.le_refl _)]
    simp
  have hB := step_normal f pre.length (pre ++ trig :: post) opts req .undefV e trig hg hc
    rfl ht hact
  rw [hfe] at hA
  rw [hB] at hA
  have hhandle : Chain.handle (pre ++ trig :: post) opts req =
      prependEv (normalTrace pre 0)
        (prependEv [.timerStart trig.name, .invoke pre.length none, .timerEnd trig.name]
          (runNext f (pre ++ trig :: post) opts req (pre.length + 1) e)) := by
    unfold Chain.handle
    exact hA
  constructor
  · intro hpost
    have hsplit : pre ++ trig :: post = (pre ++ [trig]) ++ post := by simp
    have hC := run_tail_skip_done (pre ++ [trig]) post f opts req e hc he hpost hfbig
    rw [← hsplit] at hC
    have hcur : (pre ++ [trig]).length = pre.length + 1 := by simp
    rw [hcur] at hC
    rw [hhandle, hC]
    simp [prependEv, hlen]
    omega
  · intro postA eh postB hpp hskips harity
    subst hpp
    have hsplit : pre ++ trig :: (postA ++ eh :: postB) =
        (pre ++ [trig]) ++ (postA ++ eh :: postB) := by simp
    have hfbig2 : postA.length + 1 ≤ f := by
      simp only [List.length_append, List.length_cons] at hfbig; omega
    obtain ⟨evs, idx, out, hC⟩ := run_tail_skip_errinvoke (pre ++ [trig]) postA eh postB
      f opts req e hc he hskips harity hfbig2
    rw [← hsplit] at hC
    have hcur : (pre ++ [trig]).length = pre.length + 1 := by simp
    rw [hcur] at hC
    refine ⟨evs, idx, out, ?_⟩
    rw [hhandle, hC]
    simp [prependEv]

/-!  Heap lemmas for `Router.prototype.mount`'s `_name` assignment.  -/

theorem handlerName_ne_empty (c : Nat) : ("handler-" ++ toString c) ≠ "" := by
  intro h
  have h2 := congrArg String.data h
  simp [String.data_append] at h2

theorem updateStore_uName_name (σ : Store) (id : Nat) (u : Option String) (x : Nat) :
    ((updateStore σ id { σ id with uName := u }) x).name = (σ x).name := by
  by_cases hx : x = id
  · subst hx
    simp [updateStore]
  · simp [updateStore, hx]

theorem mountNames_nil (σ : Store) (c : Nat) : mountNames σ c [] = (σ, c) := rfl

theorem mountNames_cons_anon (σ : Store) (c : Nat) (id : Nat) (rest : List Nat)
    (hn : (σ id).name = "") :
    mountNames σ c (id :: rest) =
      mountNames (updateStore σ id { σ id with uName := some ("handler-" ++ toString c) })
        (c + 1) rest := by
  simp only [mountNames]
  rw [if_pos hn]
  congr 1
  funext x
  by_cases hx : x = id
  · subst hx
    simp [updateStore, chainUseName, handlerName_ne_empty c]
  · simp [updateStore, hx]

theorem mountNames_cons_named (σ : Store) (c : Nat) (id : Nat) (rest : List Nat)
    (hn : (σ id).name ≠ "") :
    mountNames σ c (id :: rest) =
      mountNames (updateStore σ id { σ id with uName := some (σ id).name }) c rest := by
  simp only [mountNames]
  rw [if_neg hn]
  congr 1
  funext x
  by_cases hx : x = id
  · subst hx
    simp [updateStore, chainUseName, hn]
  · simp [updateStore, hx]

theorem mountNames_name_preserved (l : List Nat) :
    ∀ (σ : Store) (c : Nat) (x : Nat), (((mountNames σ c l).1) x).name = (σ x).name := by
  induction l with
  | nil => intro σ c x; rfl
  | cons id rest ih =>
    intro σ c x
    by_cases hn : (σ id).name = ""
    · rw [mountNames_cons_anon σ c id rest hn, ih]
      exact updateStore_uName_name σ id _ x
    · rw [mountNames_cons_named σ c id rest hn, ih]
      exact updateStore_uName_name σ id _ x

theorem mountNames_not_mem (l : List Nat) :
    ∀ (σ : Store) (c : Nat) (x : Nat), x ∉ l → (mountNames σ c l).1 x = σ x := by
  induction l with
  | nil => intro σ c x _; rfl
  | cons id rest ih =>
    intro σ c x hx
    have hxid : x ≠ id := fun h => hx (h ▸ List.mem_cons_self id rest)
    have hxrest : x ∉ rest := fun h => hx (List.mem_cons_of_mem id h)
    by_cases hn : (σ id).name = ""
    · rw [mountNames_cons_anon σ c id rest hn, ih _ _ _ hxrest]
      simp [updateStore, hxid]
    · rw [mountNames_cons_named σ c id rest hn, ih _ _ _ hxrest]
      simp [updateStore, hxid]

theorem anonCount_nil (σ : Store) : anonCount σ [] = 0 := rfl

theorem anonCount_cons (σ : Store) (id : Nat) (l : List Nat) :
    anonCount σ (id :: l) = (if (σ id).name = "" then 1 else 0) + anonCount σ l := by
  by_cases hn : (σ id).name = ""
  · simp [anonCount, List.filter_cons, hn]
    omega
  · simp [anonCount, List.filter_cons, hn]

theorem anonCount_congr (l : List Nat) :
    ∀ (σ₁ σ₂ : Store), (∀ x, (σ₁ x).name = (σ₂ x).name) →
      anonCount σ₁ l = anonCount σ₂ l := by
  induction l with
  | nil => intro σ₁ σ₂ _; rfl
  | cons id rest ih =>
    intro σ₁ σ₂ h
    rw [anonCount_cons, anonCount_cons, h id, ih _ _ h]

theorem mountNames_counter (l : List Nat) :
    ∀ (σ : Store) (c : Nat), (mountNames σ c l).2 = c + anonCount σ l := by
  induction l with
  | nil => intro σ c; simp [mountNames_nil, anonCount_nil]
  | cons id rest ih =>
    intro σ c
    by_cases hn : (σ id).name = ""
    · rw [mountNames_cons_anon σ c id rest hn, ih]
      rw [anonCount_congr rest _ _ (fun x => updateStore_uName_name σ id _ x)]
      rw [anonCount_cons, if_pos hn]
      omega
    · rw [mountNames_cons_named σ c id rest hn, ih]
      rw [anonCount_congr rest _ _ (fun x => updateStore_uName_name σ id _ x)]
      rw [anonCount_cons, if_neg hn]
      omega

theorem mountNames_last_assign (A : List Nat) :
    ∀ (σ : Store) (c : Nat) (id : Nat) (B : List Nat), id ∉ B →
      ((mountNames σ c (A ++ id :: B)).1 id).uName =
        some (expectedName (σ id).name (c + anonCount σ A)) := by
  induction A with
  | nil =>
    intro σ c id B hB
    simp only [List.nil_append]
    by_cases hn : (σ id).name = ""
    · rw [mountNames_cons_anon σ c id B hn, mountNames_not_mem B _ _ id hB]
      simp [updateStore, expectedName, hn, anonCount_nil]
    · rw [mountNames_cons_named σ c id B hn, mountNames_not_mem B _ _ id hB]
      simp [updateStore, expectedName, hn, anonCount_nil]
  | cons a A ih =>
    intro σ c id B hB
    simp only [List.cons_append]
    by_cases hn : (σ a).name = ""
    · rw [mountNames_cons_anon σ c a _ hn, ih _ _ _ _ hB]
      rw [updateStore_uName_name σ a _ id]
      rw [anonCount_congr A _ _ (fun x => updateStore_uName_name σ a _ x)]
      rw [anonCount_cons, if_pos hn]
      have harith : c + 1 + anonCount σ A = c + (1 + anonCount σ A) := by omega
      rw [harith]
    · rw [mountNames_cons_named σ c a _ hn, ih _ _ _ _ hB]
      rw [updateStore_uName_name σ a _ id]
      rw [anonCount_congr A _ _ (fun x => updateStore_uName_name σ a _ x)]
      rw [anonCount_cons, if_neg hn]
      have harith : c + anonCount σ A = c + (0 + anonCount σ A) := by omega
      rw [harith]

/-!  Claim theorems.  -/

/-- C1 counterexample: in the chain
`[normal handler calling next(false), arity-4 handler]`, the arity-4
handler at the later position IS executed — its body is invoked with
`false` — and `done` is scheduled with `undefined`, not `false`; this
refutes "no handler after it runs (not even error handlers), and
done(false) fires". -/
theorem c1_false_abort_counterexample :
    Chain.handle [⟨"h1", 3, .next1 .falseLit⟩, ⟨"eh", 4, .next1 .undefV⟩]
        (Chain.new false false) ⟨some false⟩ =
      ⟨[.timerStart "h1", .invoke 0 none, .timerEnd "h1",
        .timerStart "eh", .invoke 1 (some .falseLit), .timerEnd "eh",
        .doneCall .undefV], 3, .normal⟩ ∧
    Ev.invoke 1 (some .falseLit) ∈
      (Chain.handle [⟨"h1", 3, .next1 .falseLit⟩, ⟨"eh", 4, .next1 .undefV⟩]
        (Chain.new false false) ⟨some false⟩).events ∧
    doneVals (Chain.handle [⟨"h1", 3, .next1 .falseLit⟩, ⟨"eh", 4, .next1 .undefV⟩]
        (Chain.new false false) ⟨some false⟩).events ≠ [.falseLit] := by
  decide

/-- C1 (amended): after a handler calls its continuation with the literal
`false`, no normal (arity < 4) handler after it runs; `false` is treated
like an error, so the first error-handling (arity-4) handler at a later
position, if any, is invoked with `false`; only when no arity-4 handler
follows does the chain skip every remaining handler and schedule `done`
with exactly `false`. -/
theorem c1_false_abort_amended (pre post : List Handler) (trig : Handler)
    (opts : ChainOpts) (req : Req) (hc : req.closed = some false)
    (hpre : ∀ h ∈ pre, h.arity < 4 ∧ h.action = .next1 .undefV)
    (ht : trig.arity < 4) (hact : trig.action = .next1 .falseLit) :
    ((∀ h ∈ post, h.arity ≠ 4) →
      Chain.handle (pre ++ trig :: post) opts req =
        ⟨normalTrace pre 0 ++
          .timerStart trig.name :: .invoke pre.length none :: .timerEnd trig.name ::
          (skipTrace post ++ [.doneCall .falseLit]),
          (pre ++ trig :: post).length + 1, .normal⟩) ∧
    (∀ (postA : List Handler) (eh : Handler) (postB : List Handler),
      post = postA ++ eh :: postB → (∀ h ∈ postA, h.arity ≠ 4) → eh.arity = 4 →
      ∃ evs idx out,
        Chain.handle (pre ++ trig :: post) opts req =
          ⟨normalTrace pre 0 ++
            .timerStart trig.name :: .invoke pre.length none :: .timerEnd trig.name ::
            (skipTrace postA ++ .timerStart eh.name ::
              .invoke (pre.length + 1 + postA.length) (some .falseLit) :: evs),
            idx, out⟩) :=
  run_error_trigger pre post trig .falseLit opts req hc rfl hpre ht hact

/-- Witness for amended C1 at a concrete three-handler chain. -/
theorem c1_false_abort_amended_witness :
    Chain.handle [⟨"a", 3, .next1 .undefV⟩, ⟨"t", 3, .next1 .falseLit⟩,
        ⟨"b", 2, .next1 .undefV⟩] (Chain.new false false) ⟨some false⟩ =
      ⟨[.timerStart "a", .invoke 0 none, .timerEnd "a",
        .timerStart "t", .invoke 1 none, .timerEnd "t",
        .timerStart "b", .timerEnd "b", .doneCall .falseLit], 4, .normal⟩ :=
  (c1_false_abort_amended [⟨"a", 3, .next1 .undefV⟩] [⟨"b", 2, .next1 .undefV⟩]
    ⟨"t", 3, .next1 .falseLit⟩ (Chain.new false false) ⟨some false⟩ rfl
    (by decide) (by decide) rfl).1 (by decide)

/-- C2 counterexample: in the chain
`[arity-4 handler, normal handler calling next(error)]` (k = 2), handler 2
calls its continuation with a truthy error (the run's only `done` value is
that error), yet handler 1 — a position in 1..k-1 — never runs at all
(the only body invocation is position 2); this refutes "handlers 1..k-1
have each run exactly once". -/
theorem c2_error_propagation_counterexample :
    Chain.handle [⟨"eh", 4, .next1 .undefV⟩, ⟨"h2", 3, .next1 (.errVal 0)⟩]
        (Chain.new false false) ⟨some false⟩ =
      ⟨[.timerStart "eh", .timerEnd "eh", .timerStart "h2", .invoke 1 none,
        .timerEnd "h2", .doneCall (.errVal 0)], 3, .normal⟩ ∧
    invokedOf (Chain.handle [⟨"eh", 4, .next1 .undefV⟩, ⟨"h2", 3, .next1 (.errVal 0)⟩]
        (Chain.new false false) ⟨some false⟩).events = [(1, none)] ∧
    doneVals (Chain.handle [⟨"eh", 4, .next1 .undefV⟩, ⟨"h2", 3, .next1 (.errVal 0)⟩]
        (Chain.new false false) ⟨some false⟩).events = [.errVal 0] := by
  decide

/-- C2 (amended): when the k-1 handlers before position k are normal
handlers that each continue with no argument and the normal handler at
position k calls its continuation with a truthy error, then handlers
1..k-1 and handler k each run exactly once, in order; every normal handler
between k and the first error-handling (arity-4) handler after k is
skipped; the first error-handling handler after k, if any, is invoked with
that error; and when none exists, `done` is scheduled with that exact
error value. -/
theorem c2_error_propagation_amended (pre post : List Handler) (trig : Handler)
    (n : Nat) (opts : ChainOpts) (req : Req) (hc : req.closed = some false)
    (hpre : ∀ h ∈ pre, h.arity < 4 ∧ h.action = .next1 .undefV)
    (ht : trig.arity < 4) (hact : trig.action = .next1 (.errVal n)) :
    ((∀ h ∈ post, h.arity ≠ 4) →
      Chain.handle (pre ++ trig :: post) opts req =
        ⟨normalTrace pre 0 ++
          .timerStart trig.name :: .invoke pre.length none :: .timerEnd trig.name ::
          (skipTrace post ++ [.doneCall (.errVal n)]),
          (pre ++ trig :: post).length + 1, .normal⟩) ∧
    (∀ (postA : List Handler) (eh : Handler) (postB : List Handler),
      post = postA ++ eh :: postB → (∀ h ∈ postA, h.arity ≠ 4) → eh.arity = 4 →
      ∃ evs idx out,
        Chain.handle (pre ++ trig :: post) opts req =
          ⟨normalTrace pre 0 ++
            .timerStart trig.name :: .invoke pre.length none :: .timerEnd trig.name ::
            (skipTrace postA ++ .timerStart eh.name ::
              .invoke (pre.length + 1 + postA.length) (some (.errVal n)) :: evs),
            idx, out⟩) :=
  run_error_trigger pre post trig (.errVal n) opts req hc rfl hpre ht hact

/-- Witness for amended C2 at a concrete two-handler chain. -/
theorem c2_error_propagation_amended_witness :
    Chain.handle [⟨"p", 0, .next1 .undefV⟩, ⟨"q", 3, .next1 (.errVal 7)⟩]
        (Chain.new false false) ⟨some false⟩ =
      ⟨[.timerStart "p", .invoke 0 none, .timerEnd "p",
        .timerStart "q", .invoke 1 none, .timerEnd "q",
        .doneCall (.errVal 7)], 3, .normal⟩ :=
  (c2_error_propagation_amended [⟨"p", 0, .next1 .undefV⟩] []
    ⟨"q", 3, .next1 (.errVal 7)⟩ 7 (Chain.new false false) ⟨some false⟩ rfl
    (by decide) (by decide) rfl).1 (by decide)

/-- C4: for every chain constructed with `strictNext: true` (whatever the
`onceNext` argument), a normal handler that calls its continuation a second
time — here with surrounding handlers that continue normally — makes the
dispatch end with the uncaught fatal error of the strict once-wrapper,
whose message is the fixed string built from the wrapped function's name
(`next shouldn't be called more than once`), while the terminal callback
was scheduled exactly once, by the first continuation call. -/
theorem c4_strict_next_double_call (pre post : List Handler) (trig : Handler)
    (b : Bool) (req : Req) (hc : req.closed = some false)
    (hpre : ∀ h ∈ pre, h.arity < 4 ∧ h.action = .next1 .undefV)
    (hpost : ∀ h ∈ post, h.arity < 4 ∧ h.action = .next1 .undefV)
    (ht : trig.arity < 4) (hact : trig.action = .next2 .undefV .undefV) :
    Chain.handle (pre ++ trig :: post) (Chain.new b true) req =
      ⟨normalTrace pre 0 ++
        .timerStart trig.name :: .invoke pre.length none :: .timerEnd trig.name ::
        ((normalTrace post (pre.length + 1) ++ [.doneCall .undefV]) ++
          [.timerEnd trig.name]),
        (pre ++ trig :: post).length + 1,
        .fatal "next shouldn't be called more than once"⟩ ∧
    doneVals (Chain.handle (pre ++ trig :: post) (Chain.new b true) req).events =
      [.undefV] ∧
    (Chain.handle (pre ++ trig :: post) (Chain.new b true) req).outcome =
      .fatal "next shouldn't be called more than once" := by
  have hlen : (pre ++ trig :: post).length = pre.length + post.length + 1 := by
    simp
    omega
  have honce : (Chain.new b true).onceNext = true := by simp [Chain.new]
  have hstrict : (Chain.new b true).strictNext = true := rfl
  have hA := run_seg_normal pre [] (trig :: post) (2 * (pre ++ trig :: post).length + 2)
    (Chain.new b true) req hc hpre (by omega)
  simp only [List.nil_append, List.length_nil, Nat.zero_add] at hA
  obtain ⟨f, hfe⟩ : ∃ f, 2 * (pre ++ trig :: post).length + 2 - pre.length = f + 1 :=
    ⟨2 * (pre ++ trig :: post).length + 2 - pre.length - 1, by rw [hlen]; omega⟩
  rw [hfe] at hA
  have hsplit : pre ++ trig :: post = (pre ++ [trig]) ++ post := by simp
  have hfbig : post.length + 1 ≤ f := by rw [hlen] at hfe; omega
  have hr1 := run_tail_normal (pre ++ [trig]) post f (Chain.new b true) req hc hpost hfbig
  rw [← hsplit] at hr1
  have hcur : (pre ++ [trig]).length = pre.length + 1 := by simp
  rw [hcur] at hr1
  have hg : (pre ++ trig :: post)[pre.length]? = some trig := by
    rw [List.getElem?_append_right (Nat.le_refl _)]
    simp
  have hout : (runNext f (pre ++ trig :: post) (Chain.new b true) req
      (pre.length + 1) .undefV).outcome = .normal := by rw [hr1]
  have hB := step_next2_strict f pre.length (pre ++ trig :: post) (Chain.new b true)
    req trig hg hc ht hact honce hstrict hout
  rw [hr1] at hB
  rw [hB] at hA
  have hfull : Chain.handle (pre ++ trig :: post) (Chain.new b true) req =
      ⟨normalTrace pre 0 ++
        .timerStart trig.name :: .invoke pre.length none :: .timerEnd trig.name ::
        ((normalTrace post (pre.length + 1) ++ [.doneCall .undefV]) ++
          [.timerEnd trig.name]),
        (pre ++ trig :: post).length + 1,
        .fatal "next shouldn't be called more than once"⟩ := by
    unfold Chain.handle
    rw [hA]
    simp [prependEv, hlen]
    omega
  refine ⟨hfull, ?_, ?_⟩
  · rw [hfull]
    simp [doneVals_append, doneVals_normalTrace, doneVals_cons_timerStart,
      doneVals_cons_timerEnd, doneVals_cons_invoke, doneVals_cons_done, doneVals_nil]
  · rw [hfull]

/-- Witness for C4 at a concrete three-handler chain. -/
theorem c4_strict_next_double_call_witness :
    Chain.handle [⟨"a", 3, .next1 .undefV⟩, ⟨"t", 3, .next2 .undefV .undefV⟩,
        ⟨"b", 3, .next1 .undefV⟩] (Chain.new false true) ⟨some false⟩ =
      ⟨[.timerStart "a", .invoke 0 none, .timerEnd "a",
        .timerStart "t", .invoke 1 none, .timerEnd "t",
        .timerStart "b", .invoke 2 none, .timerEnd "b",
        .doneCall .undefV, .timerEnd "t"], 4,
        .fatal "next shouldn't be called more than once"⟩ :=
  (c4_strict_next_double_call [⟨"a", 3, .next1 .undefV⟩] [⟨"b", 3, .next1 .undefV⟩]
    ⟨"t", 3, .next2 .undefV .undefV⟩ false ⟨some false⟩ rfl
    (by decide) (by decide) (by decide) rfl).1

/-- C5: for every chain constructed with `onceNext: true` (and not
`strictNext`), a normal handler that calls its continuation twice — here
with surrounding handlers that continue normally — produces the same chain
progress as calling it once: the dispatch ends normally, the terminal
callback is scheduled exactly once, the final cursor equals the cursor of
the single-call run, and the event trace equals the single-call trace plus
only the extra `endHandlerTimer` recorded by the dropped second call. -/
theorem c5_once_next_double_call (pre post : List Handler) (trig : Handler)
    (req : Req) (hc : req.closed = some false)
    (hpre : ∀ h ∈ pre, h.arity < 4 ∧ h.action = .next1 .undefV)
    (hpost : ∀ h ∈ post, h.arity < 4 ∧ h.action = .next1 .undefV)
    (ht : trig.arity < 4) (hact : trig.action = .next2 .undefV .undefV) :
    Chain.handle (pre ++ trig :: post) (Chain.new true false) req =
      ⟨normalTrace pre 0 ++
        .timerStart trig.name :: .invoke pre.length none :: .timerEnd trig.name ::
        ((normalTrace post (pre.length + 1) ++ [.doneCall .undefV]) ++
          [.timerEnd trig.name]),
        (pre ++ trig :: post).length + 1, .normal⟩ ∧
    doneVals (Chain.handle (pre ++ trig :: post) (Chain.new true false) req).events =
      [.undefV] ∧
    (Chain.handle (pre ++ trig :: post) (Chain.new true false) req).index =
      (Chain.handle (pre ++ { trig with action := .next1 .undefV } :: post)
        (Chain.new true false) req).index ∧
    (Chain.handle (pre ++ trig :: post) (Chain.new true false) req).events =
      (Chain.handle (pre ++ { trig with action := .next1 .undefV } :: post)
        (Chain.new true false) req).events ++ [.timerEnd trig.name] := by
  have hlen : (pre ++ trig :: post).length = pre.length + post.length + 1 := by
    simp
    omega
  have honce : (Chain.new true false).onceNext = true := rfl
  have hstrict : (Chain.new true false).strictNext = false := rfl
  have hA := run_seg_normal pre [] (trig :: post) (2 * (pre ++ trig :: post).length + 2)
    (Chain.new true false) req hc hpre (by omega)
  simp only [List.nil_append, List.length_nil, Nat.zero_add] at hA
  obtain ⟨f, hfe⟩ : ∃ f, 2 * (pre ++ trig :: post).length + 2 - pre.length = f + 1 :=
    ⟨2 * (pre ++ trig :: post).length + 2 - pre.length - 1, by rw [hlen]; omega⟩
  rw [hfe] at hA
  have hsplit : pre ++ trig :: post = (pre ++ [trig]) ++ post := by simp
  have hfbig : post.length + 1 ≤ f := by rw [hlen] at hfe; omega
  have hr1 := run_tail_normal (pre ++ [trig]) post f (Chain.new true false) req hc hpost hfbig
  rw [← hsplit] at hr1
  have hcur : (pre ++ [trig]).length = pre.length + 1 := by simp
  rw [hcur] at hr1
  have hg : (pre ++ trig :: post)[pre.length]? = some trig := by
    rw [List.getElem?_append_right (Nat.le_refl _)]
    simp
  have hout : (runNext f (pre ++ trig :: post) (Chain.new true false) req
      (pre.length + 1) .undefV).outcome = .normal := by rw [hr1]
  have hB := step_next2_silent f pre.length (pre ++ trig :: post) (Chain.new true false)
    req trig hg hc ht hact honce hstrict hout
  rw [hr1] at hB
  rw [hB] at hA
  have hfull : Chain.handle (pre ++ trig :: post) (Chain.new true false) req =
      ⟨normalTrace pre 0 ++
        .timerStart trig.name :: .invoke pre.length none :: .timerEnd trig.name ::
        ((normalTrace post (pre.length + 1) ++ [.doneCall .undefV]) ++
          [.timerEnd trig.name]),
        (pre ++ trig :: post).length + 1, .normal⟩ := by
    unfold Chain.handle
    rw [hA]
    simp [prependEv, hlen]
    omega
  have hall1 : ∀ h ∈ pre ++ { trig with action := .next1 .undefV } :: post,
      h.arity < 4 ∧ h.action = .next1 .undefV := by
    intro h hh
    rcases List.mem_append.mp hh with hh | hh
    · exact hpre h hh
    · rcases List.mem_cons.mp hh with hh | hh
      · subst hh
        exact ⟨ht, rfl⟩
      · exact hpost h hh
  have hlen1 : (pre ++ { trig with action := .next1 .undefV } :: post).length =
      (pre ++ trig :: post).length := by simp
  have hsingle : Chain.handle (pre ++ { trig with action := .next1 .undefV } :: post)
      (Chain.new true false) req =
      ⟨normalTrace (pre ++ { trig with action := .next1 .undefV } :: post) 0 ++
        [.doneCall .undefV],
        (pre ++ { trig with action := .next1 .undefV } :: post).length + 1, .normal⟩ := by
    unfold Chain.handle
    have h1 := run_tail_normal [] (pre ++ { trig with action := .next1 .undefV } :: post)
      (2 * (pre ++ { trig with action := .next1 .undefV } :: post).length + 2)
      (Chain.new true false) req hc hall1 (by omega)
    simpa using h1
  refine ⟨hfull, ?_, ?_, ?_⟩
  · rw [hfull]
    simp [doneVals_append, doneVals_normalTrace, doneVals_cons_timerStart,
      doneVals_cons_timerEnd, doneVals_cons_invoke, doneVals_cons_done, doneVals_nil]
  · rw [hfull, hsingle]
    simp [hlen, hlen1]
  · rw [hfull, hsingle]
    rw [normalTrace_append]
    simp only [normalTrace, Nat.zero_add]
    simp [List.append_assoc]

/-- Witness for C5 at a concrete three-handler chain. -/
theorem c5_once_next_double_call_witness :
    Chain.handle [⟨"a", 3, .next1 .undefV⟩, ⟨"t", 3, .next2 .undefV .undefV⟩,
        ⟨"b", 3, .next1 .undefV⟩] (Chain.new true false) ⟨some false⟩ =
      ⟨[.timerStart "a", .invoke 0 none, .timerEnd "a",
        .timerStart "t", .invoke 1 none, .timerEnd "t",
        .timerStart "b", .invoke 2 none, .timerEnd "b",
        .doneCall .undefV, .timerEnd "t"], 4, .normal⟩ :=
  (c5_once_next_double_call [⟨"a", 3, .next1 .undefV⟩] [⟨"b", 3, .next1 .undefV⟩]
    ⟨"t", 3, .next2 .undefV .undefV⟩ ⟨some false⟩ rfl
    (by decide) (by decide) (by decide) rfl).1

/-- C3: for every chain of N normal handlers (arity < 4) that each call
their continuation with no argument, and a live request (the `closed()`
hook is present and returns `false`), `Chain.handle` invokes all N handler
bodies exactly once each, in registration (`use`) order, and then invokes
the terminal callback `done` with no error, exactly once. -/
theorem c3_normal_chain_runs_all_in_order_then_done (stack : List Handler)
    (opts : ChainOpts) (req : Req) (hc : req.closed = some false)
    (hall : ∀ h ∈ stack, h.arity < 4 ∧ h.action = .next1 .undefV) :
    Chain.handle stack opts req =
      ⟨normalTrace stack 0 ++ [.doneCall .undefV], stack.length + 1, .normal⟩ ∧
    invokedOf (Chain.handle stack opts req).events =
      (List.range stack.length).map (fun j => (j, none)) ∧
    doneVals (Chain.handle stack opts req).events = [.undefV] := by
  have h0 : Chain.handle stack opts req =
      ⟨normalTrace stack 0 ++ [.doneCall .undefV], stack.length + 1, .normal⟩ := by
    unfold Chain.handle
    have h1 := run_tail_normal [] stack (2 * stack.length + 2) opts req hc hall (by omega)
    simpa using h1
  refine ⟨h0, ?_, ?_⟩
  · rw [h0]
    simp [invokedOf_append, invokedOf_normalTrace, invokedOf_doneSingleton,
      List.range_eq_range']
  · rw [h0]
    simp [doneVals_append, doneVals_normalTrace, doneVals_doneSingleton]

/-- C7 (code-bug evaluation): `Chain.prototype.handle` evaluates
`req.closed()` whenever another handler remains, so a request object
without the optional `closed()` hook makes the dispatch die with a
TypeError before any handler body runs and before `done` is ever called —
it is not dispatched normally; only the empty chain escapes, through the
`!layer` short circuit. -/
theorem c7_missing_closed_hook_type_error :
    Chain.handle [⟨"h", 3, .next1 .undefV⟩] (Chain.new false false) ⟨none⟩ =
      ⟨[], 1, .typeError "req.closed is not a function"⟩ ∧
    Chain.handle [] (Chain.new false false) ⟨none⟩ =
      ⟨[.doneCall .undefV], 1, .normal⟩ := by
  decide

/-- C6 counterexample: with `GET /` mounted, looking up method `OPTIONS`
for pathname `*` — a path that no method matches — does not propagate a
404 resource-not-found error: the unconditional CORS branch of
`defaultRoute` answers 200 and continues with no error. -/
theorem c6_options_star_counterexample :
    Router.lookup (Router.mount Router.new (fun _ => ⟨"", none⟩)
        ⟨"my-route", "GET", .str "/"⟩ [0]).1 ⟨"OPTIONS", "*"⟩ = .corsOk ∧
    Router.lookup (Router.mount Router.new (fun _ => ⟨"", none⟩)
        ⟨"my-route", "GET", .str "/"⟩ [0]).1 ⟨"OPTIONS", "*"⟩ ≠
      .nextErr ⟨404, "* does not exist"⟩ none := by
  decide

/-- C6 (amended): for a router with only `GET /` mounted, looking up
`GET /` dispatches that route's chain; looking up `POST /` sets the
`Allow` header to exactly the matching methods (`GET`) and propagates a
405 method-not-allowed error; and looking up any method on a path no
method matches propagates a 404 resource-not-found error — except an
`OPTIONS` request for pathname `*`, which takes the CORS branch instead. -/
theorem c6_router_lookup_amended (σ : Store) (hs : List Nat) :
    Router.lookup (Router.mount Router.new σ ⟨"my-route", "GET", .str "/"⟩ hs).1
        ⟨"GET", "/"⟩ = .dispatched ⟨"my-route", "GET", "/", hs⟩ ∧
    Router.lookup (Router.mount Router.new σ ⟨"my-route", "GET", .str "/"⟩ hs).1
        ⟨"POST", "/"⟩ = .nextErr ⟨405, "POST is not allowed"⟩ (some "GET") ∧
    (∀ (m p : String), p ≠ "/" → ¬(m = "OPTIONS" ∧ p = "*") →
      Router.lookup (Router.mount Router.new σ ⟨"my-route", "GET", .str "/"⟩ hs).1
          ⟨m, p⟩ = .nextErr ⟨404, p ++ " does not exist"⟩ none) := by
  refine ⟨rfl, rfl, ?_⟩
  intro m p hp hmp
  have hfind : ∀ m' : String,
      fmwFind [⟨"GET", "/", ⟨"my-route", "GET", "/", hs⟩⟩] m' p = none := by
    intro m'
    apply List.find?_eq_none.mpr
    intro x hx
    simp only [List.mem_singleton] at hx
    subst hx
    simp [Ne.symm hp]
  show Router.lookup ⟨[("my-route", ⟨"my-route", "GET", "/", hs⟩)],
      [⟨"GET", "/", ⟨"my-route", "GET", "/", hs⟩⟩],
      (mountNames σ 0 hs).2⟩ ⟨m, p⟩ = .nextErr ⟨404, p ++ " does not exist"⟩ none
  unfold Router.lookup
  rw [hfind m]
  unfold Router.defaultRoute
  rw [if_neg hmp]
  have hfilter : httpMethods.filter
      (fun m' => (fmwFind [⟨"GET", "/", ⟨"my-route", "GET", "/", hs⟩⟩] m' p).isSome) =
      [] := by
    apply List.filter_eq_nil_iff.mpr
    intro a ha
    simp [hfind a]
  simp [hfilter]

/-- Witness for amended C6: a plain method on an unmounted path gets the
404 propagated. -/
theorem c6_router_lookup_amended_witness :
    Router.lookup (Router.mount Router.new (fun _ => ⟨"x", none⟩)
        ⟨"my-route", "GET", .str "/"⟩ [3]).1 ⟨"PUT", "/x"⟩ =
      .nextErr ⟨404, "/x does not exist"⟩ none :=
  (c6_router_lookup_amended (fun _ => ⟨"x", none⟩) [3]).2.2 "PUT" "/x"
    (by decide) (by decide)

/-- C8 counterexample: mounting the regular expression `/^\/foo$/` stores
the path `"/foo$"` — the trailing `$` anchor is not stripped — and not
`"/foo"` as the claim's example requires. -/
theorem c8_regex_path_counterexample :
    (Router.mount Router.new (fun _ => ⟨"", none⟩)
        ⟨"r", "GET", .regex "^\\/foo$"⟩ []).2.2.path = "/foo$" ∧
    ("/foo$" : String) ≠ "/foo" := by
  decide

/-- C8 (amended): for a regular-expression path, `mount` stores the regex
source with every backslash removed and one leading `^` (when present)
stripped — a trailing `$` anchor is left in place — while a string path is
stored unchanged; in particular the source `^\/foo$` is stored as
`/foo$`. -/
theorem c8_regex_path_amended (r : RouterSt) (σ : Store) (nm m : String)
    (hs : List Nat) (src s : String) :
    (Router.mount r σ ⟨nm, m, .regex src⟩ hs).2.2.path =
      (if (src.data.filter fun c => c ≠ '\\').head? = some '^'
        then String.mk (src.data.filter fun c => c ≠ '\\').tail
        else String.mk (src.data.filter fun c => c ≠ '\\')) ∧
    (Router.mount r σ ⟨nm, m, .str s⟩ hs).2.2.path = s ∧
    (Router.mount r σ ⟨nm, m, .regex "^\\/foo$"⟩ hs).2.2.path = "/foo$" := by
  refine ⟨?_, rfl, rfl⟩
  show mountPath (.regex src) =
    (if (src.data.filter fun c => c ≠ '\\').head? = some '^'
      then String.mk (src.data.filter fun c => c ≠ '\\').tail
      else String.mk (src.data.filter fun c => c ≠ '\\'))
  simp only [mountPath]
  rcases hl : src.data.filter fun c => c ≠ '\\' with _ | ⟨c, rest⟩
  · simp
  · by_cases hc : c = '^'
    · subst hc
      simp
    · simp [hc]

/-- C9 (code-bug evaluation): with one route mounted, `getDebugInfo` dies
with a TypeError — `router.js` calls `route.chain.extractHandlers()`, but
`lib/chain.js` defines `getHandlers` and no `extractHandlers`; only a
router with no mounted routes returns (the empty) map. -/
theorem c9_get_debug_info_type_error :
    Router.getDebugInfo (Router.mount Router.new (fun _ => ⟨"", none⟩)
        ⟨"my-route", "GET", .str "/"⟩ [0]).1 =
      .error "TypeError: route.chain.extractHandlers is not a function" ∧
    Router.getDebugInfo Router.new = .ok [] :=
  ⟨rfl, rfl⟩

/-- C10: `Router.prototype.mount` mutates the handler function objects it
is given.  (i) After a mount, a handler whose last occurrence in the
handlers array is at position `|A|` (no later duplicate) carries
`_name` equal to its own non-empty `name`, or `handler-<counter>` where the
counter is the router's counter advanced by the anonymous handlers
processed before it.  (ii) The per-router counter advances by exactly the
number of anonymous handlers of the mount — strictly increasing, never
reused.  (iii) Across two mounts, a function mounted in the second ends up
with the `_name` the second (later) mount assigns, computed from the
counter left behind by the first mount. -/
theorem c10_mount_assigns_handler_names :
    (∀ (σ : Store) (r : RouterSt) (o : MountOpts) (A B : List Nat) (id : Nat),
      id ∉ B →
      (((Router.mount r σ o (A ++ id :: B)).2.1) id).uName =
        some (expectedName (σ id).name (r.anonymusHandlerCounter + anonCount σ A))) ∧
    (∀ (σ : Store) (r : RouterSt) (o : MountOpts) (hs : List Nat),
      ((Router.mount r σ o hs).1).anonymusHandlerCounter =
        r.anonymusHandlerCounter + anonCount σ hs) ∧
    (∀ (σ : Store) (r : RouterSt) (o₁ o₂ : MountOpts) (hs₁ : List Nat)
      (A B : List Nat) (id : Nat), id ∉ B →
      (((Router.mount (Router.mount r σ o₁ hs₁).1 (Router.mount r σ o₁ hs₁).2.1 o₂
          (A ++ id :: B)).2.1) id).uName =
        some (expectedName (σ id).name
          (r.anonymusHandlerCounter + anonCount σ hs₁ + anonCount σ A))) := by
  refine ⟨?_, ?_, ?_⟩
  · intro σ r o A B id hB
    exact mountNames_last_assign A σ r.anonymusHandlerCounter id B hB
  · intro σ r o hs
    exact mountNames_counter hs σ r.anonymusHandlerCounter
  · intro σ r o₁ o₂ hs₁ A B id hB
    show ((mountNames (mountNames σ r.anonymusHandlerCounter hs₁).1
        (mountNames σ r.anonymusHandlerCounter hs₁).2 (A ++ id :: B)).1 id).uName = _
    rw [mountNames_last_assign A _ _ id B hB]
    rw [mountNames_name_preserved hs₁ σ r.anonymusHandlerCounter id]
    rw [anonCount_congr A _ _
      (fun x => mountNames_name_preserved hs₁ σ r.anonymusHandlerCounter x)]
    rw [mountNames_counter hs₁ σ r.anonymusHandlerCounter]

/-- Witness for C10: the anonymous function object `1`, mounted twice in
the same handlers array of a single mount (last occurrence at index 2,
after one other anonymous and one named handler), ends up with the `_name`
of its last processing, `handler-1`. -/
theorem c10_mount_assigns_handler_names_witness :
    (1 : Nat) ∉ ([] : List Nat) ∧
    ((Router.mount Router.new
        (fun n => if n = 0 then ⟨"foo", none⟩ else ⟨"", none⟩)
        ⟨"r1", "GET", .str "/"⟩ ([1, 0] ++ 1 :: [])).2.1 1).uName =
      some "handler-1" := by
  have h := c10_mount_assigns_handler_names.1
    (fun n => if n = 0 then ⟨"foo", none⟩ else ⟨"", none⟩)
    Router.new ⟨"r1", "GET", .str "/"⟩ [1, 0] [] 1 (by decide)
  refine ⟨by decide, ?_⟩
  rw [h]
  decide

/-- Witness for C3 at a concrete two-handler chain. -/
theorem c3_normal_chain_runs_all_in_order_then_done_witness :
    ((⟨some false⟩ : Req).closed = some false ∧
      ∀ h ∈ ([⟨"w1", 3, .next1 .undefV⟩, ⟨"w2", 2, .next1 .undefV⟩] : List Handler),
        h.arity < 4 ∧ h.action = .next1 .undefV) ∧
    Chain.handle [⟨"w1", 3, .next1 .undefV⟩, ⟨"w2", 2, .next1 .undefV⟩]
        (Chain.new false false) ⟨some false⟩ =
      ⟨[.timerStart "w1", .invoke 0 none, .timerEnd "w1",
        .timerStart "w2", .invoke 1 none, .timerEnd "w2", .doneCall .undefV],
        3, .normal⟩ :=
  ⟨⟨rfl, by decide⟩,
    (c3_normal_chain_runs_all_in_order_then_done
      [⟨"w1", 3, .next1 .undefV⟩, ⟨"w2", 2, .next1 .undefV⟩]
      (Chain.new false false) ⟨some false⟩ rfl (by decide)).1⟩
